import Mathlib

/-!
Verification of the label-skew partitioning utility in
`experiments/heterogeneous_class_dist/dataset.py`.

The Python functions are shallowly embedded as executable Lean definitions:

* randomness (`np.random.choice`, `np.random.uniform`, `random.shuffle`) is
  modelled by explicit oracle parameters — an index oracle `rnd : ℕ → ℕ`
  selecting an element of the candidate list, a draw oracle
  `draw : ℕ → ℕ → ℚ` producing the uniform samples, and the shuffled
  per-class pools are quantified over all permutations of the unshuffled
  pools;
* Python floats are modelled as exact rationals `ℚ`;
* `np.float` truncation `int(...)` is modelled by `pyInt` (round toward zero);
* a Python exception (`np.random.choice` on an empty candidate list, failed
  `assert`, `raise ValueError`, `KeyError`) is modelled by `Option`/an error
  constructor.

Class labels are assumed canonical (values `0 .. num_classes-1`), which is
the case for the CIFAR/CINIC datasets the file loads; under this assumption
`np.unique(labels, return_counts=True)` yields `num_samples[c] = count of c`,
embedded below as `num_samples`.
-/

namespace PFedGP

/-- Embedding of `max(class_counts)` for a list of natural numbers (`dataset.py` line 143). -/
def maxCount (l : List ℕ) : ℕ := l.foldr max 0

/-- Number of distinct classes, `len(np.unique(labels))` (`dataset.py` line 105). -/
def numClasses (labels : List ℕ) : ℕ := labels.dedup.length

/-- Per-class sample count: for canonical labels this is `num_samples[c]` of
`get_num_classes_samples` (`dataset.py` line 105). -/
def num_samples (labels : List ℕ) (c : ℕ) : ℕ := labels.count c

/-- Embedding of `np.where(data_labels_list == i)[0]` (`dataset.py` line 166): the ascending
list of sample indices whose label is `c`. -/
def data_class_idx (labels : List ℕ) (c : ℕ) : List ℕ :=
  (List.range labels.length).filter (fun i => labels.getD i 0 == c)

/-- Embedding of `class_dict[c]['count'] -= 1` (`dataset.py` line 147). -/
def decAt (l : List ℕ) (j : ℕ) : List ℕ := l.set j (l.getD j 0 - 1)

/-- The candidate classes of one selection step (`dataset.py` lines 142-145):
classes whose remaining budget equals the maximum, minus the classes already
chosen by the current client. -/
def candidates (counts : List ℕ) (c : List ℕ) : List ℕ :=
  (List.range counts.length).filter
    (fun j => counts.getD j 0 == maxCount counts && !(List.elem j c))

/-- Embedding of `np.random.choice(max_class_counts)` (`dataset.py` line 146) with choice
oracle `r`: any element of the candidate list is reachable for a suitable `r`;
`none` models the exception raised on an empty candidate list. -/
def pickClass (r : ℕ) (counts : List ℕ) (c : List ℕ) : Option ℕ :=
  (candidates counts c)[r % (candidates counts c).length]?

/-- The inner `for _ in range(classes_per_user)` loop of `gen_classes_per_node`
(`dataset.py` lines 141-147), parameterised by the number `n` of picks still to
make, the oracle offset `t`, the remaining budgets and the classes already
chosen by this client. -/
def pickLoop (rnd : ℕ → ℕ) : ℕ → ℕ → List ℕ → List ℕ → Option (List ℕ × List ℕ)
  | _, 0, counts, c => some (counts, c)
  | t, n + 1, counts, c =>
    match pickClass (rnd t) counts c with
    | none => none
    | some j => pickLoop rnd (t + 1) n (decAt counts j) (c ++ [j])

/-- Embedding of `[class_dict[i]['prob'].pop() for i in c]` (`dataset.py` line 149):
`list.pop()` removes the last element of the chosen class's proportion list.
An empty list yields the default `0` (the runs we reason about never pop an
empty list). -/
def popList : List (List ℚ) → List ℕ → List (List ℚ) × List ℚ
  | probs, [] => (probs, [])
  | probs, j :: rest =>
    let l := probs.getD j []
    let out := popList (probs.set j l.dropLast) rest
    (out.1, l.getLastD 0 :: out.2)

/-- The `class_partitions` dictionary returned by `gen_classes_per_node`
(`dataset.py` lines 138, 148-150): parallel per-client lists of class ids and
proportions. -/
structure Plan where
  classes : List (List ℕ)
  probs : List (List ℚ)
deriving Repr, DecidableEq

/-- The `class_dict` state of `gen_classes_per_node` (`dataset.py` line 133):
per-class remaining assignment budget and per-class proportion list. -/
structure ClassDict where
  counts : List ℕ
  probs : List (List ℚ)
deriving Repr, DecidableEq

/-- The outer `for i in range(num_users)` loop of `gen_classes_per_node`
(`dataset.py` lines 139-149). -/
def userLoop (rnd : ℕ → ℕ) (cpu : ℕ) : ℕ → ℕ → ClassDict → Plan → Option (ClassDict × Plan)
  | _, 0, st, acc => some (st, acc)
  | t, m + 1, st, acc =>
    match pickLoop rnd t cpu st.counts [] with
    | none => none
    | some out =>
      let pp := popList st.probs out.2
      userLoop rnd cpu (t + cpu) m ⟨out.1, pp.1⟩
        ⟨acc.classes ++ [out.2], acc.probs ++ [pp.2]⟩

/-- Embedding of `(probs / probs.sum()).tolist()` (`dataset.py` line 132). -/
def normalize (l : List ℚ) : List ℚ := l.map (fun x => x / l.sum)

/-- The proportion list generated for class `i` (`dataset.py` lines 130-132):
`count_per_class` oracle draws, normalised to sum to one. -/
def class_probs (draw : ℕ → ℕ → ℚ) (cpc : ℕ) (i : ℕ) : List ℚ :=
  normalize ((List.range cpc).map (draw i))

/-- Embedding of `gen_classes_per_node` (`dataset.py` lines 110-150). `none` models a raised
exception: the failed `assert` on line 125, or `np.random.choice` called on an
empty candidate list on line 146. -/
def gen_classes_per_node (labels : List ℕ) (num_users cpu : ℕ)
    (draw : ℕ → ℕ → ℚ) (rnd : ℕ → ℕ) : Option (ClassDict × Plan) :=
  if (cpu * num_users) % numClasses labels = 0 then
    userLoop rnd cpu 0 num_users
      ⟨List.replicate (numClasses labels) ((cpu * num_users) / numClasses labels),
        (List.range (numClasses labels)).map
          (class_probs draw ((cpu * num_users) / numClasses labels))⟩
      ⟨[], []⟩
  else none

/-- Python `int(...)` on a rational: truncation toward zero. -/
def pyInt (q : ℚ) : ℤ := if 0 ≤ q then ⌊q⌋ else ⌈q⌉

/-- Embedding of `end_idx = int(num_samples[c] * p)` (`dataset.py` line 180). -/
def end_idx (n : ℕ) (p : ℚ) : ℕ := (pyInt ((n : ℚ) * p)).toNat

/-- The inner `for c, p in zip(...)` loop of `gen_data_split`
(`dataset.py` lines 179-182), for one client: threads the per-class pools and
returns the list of slices taken, one per `(class, proportion)` pair. The
client's index list is the concatenation of the slices (`extend`,
line 181). -/
def assignPairs (labels : List ℕ) : List (ℕ × ℚ) → List (List ℕ) → List (List ℕ) × List (List ℕ)
  | [], pools => (pools, [])
  | cp :: rest, pools =>
    let e := end_idx (num_samples labels cp.1) cp.2
    let pool := pools.getD cp.1 []
    let out := assignPairs labels rest (pools.set cp.1 (pool.drop e))
    (out.1, pool.take e :: out.2)

/-- The outer `for usr_i in range(num_users)` loop of `gen_data_split`
(`dataset.py` lines 178-182): one entry of `plans` per client, each a list of
`(class, proportion)` pairs. -/
def splitUsers (labels : List ℕ) :
    List (List (ℕ × ℚ)) → List (List ℕ) → List (List ℕ) × List (List (List ℕ))
  | [], pools => (pools, [])
  | upairs :: rest, pools =>
    let a := assignPairs labels upairs pools
    let out := splitUsers labels rest a.1
    (out.1, a.2 :: out.2)

/-- Embedding of `zip(class_partitions['class'][usr_i], class_partitions['prob'][usr_i])`
(`dataset.py` line 179), for every client. -/
def mkPairs (plan : Plan) : List (List (ℕ × ℚ)) :=
  (plan.classes.zip plan.probs).map (fun pr => pr.1.zip pr.2)

/-- Embedding of `gen_data_split` (`dataset.py` lines 153-184) given already-shuffled
per-class pools: returns `user_data_idx`, one index list per client. -/
def gen_data_split (labels : List ℕ) (pools : List (List ℕ)) (plan : Plan) :
    List (List ℕ) :=
  ((splitUsers labels (mkPairs plan) pools).2).map List.flatten

/-- The unshuffled pools `{i: np.where(labels == i)[0]}` (`dataset.py`
line 166); `random.shuffle` (line 172) permutes each entry in place. -/
def initPools (labels : List ℕ) : List (List ℕ) :=
  (List.range (numClasses labels)).map (data_class_idx labels)

/-- Statement that `pools` is a possible result of shuffling each per-class index pool
(`dataset.py` lines 166-172): classwise a permutation of `data_class_idx`. -/
def Shuffled (labels : List ℕ) (pools : List (List ℕ)) : Prop :=
  ∀ c, (pools.getD c []).Perm (data_class_idx labels c)

/-- Labels are canonical: every label value is below the number of distinct
classes (so the distinct values are exactly `0 .. num_classes - 1`). -/
def Canonical (labels : List ℕ) : Prop :=
  ∀ x ∈ labels, x < numClasses labels

/-- Outcome of `get_datasets` (`dataset.py` lines 12-81) with the external
dataset constructors abstracted to a success token.  `keyError` is the
`norm_map[data_name]` lookup failure (line 33), `valueError` the explicit
`raise` (line 79), `cinicMissing` the missing-directory `raise`
(lines 61-62). -/
inductive DataResult where
  | ok (name : String)
  | keyError
  | valueError
  | cinicMissing
deriving Repr, DecidableEq

/-- Does `pat` occur at the head of `s`? -/
def headMatch : List Char → List Char → Bool
  | [], _ => true
  | _ :: _, [] => false
  | a :: t1, b :: t2 => a == b && headMatch t1 t2

/-- Python's substring test `pat in s` on character lists. -/
def subOccurs (pat : List Char) : List Char → Bool
  | [] => pat.isEmpty
  | b :: t => headMatch pat (b :: t) || subOccurs pat t

/-- Embedding of `"cifar" in data_name` (`dataset.py` line 32). -/
def containsCifar (s : String) : Bool := subOccurs "cifar".toList s.toList

/-- Control flow of `get_datasets` (`dataset.py` lines 12-81).
`cinic_dir_exists` models `os.path.exists("../cinic/train")` (line 61). -/
def get_datasets (data_name : String) (cinic_dir_exists : Bool) : DataResult :=
  if containsCifar data_name then
    if data_name = "cifar10" then .ok "cifar10"
    else if data_name = "cifar100" then .ok "cifar100"
    else .keyError
  else if data_name = "cinic10" then
    if cinic_dir_exists then .ok "cinic10" else .cinicMissing
  else .valueError

/-- A `DataResult` that models a raised exception rather than returned
datasets. -/
def isError : DataResult → Bool
  | .ok _ => false
  | _ => true

/-- Budget lists whose entries are pairwise within one of each other; an
invariant of the greedy selection of `gen_classes_per_node`. -/
def Balanced (l : List ℕ) : Prop :=
  ∀ i, i < l.length → ∀ j, j < l.length → l.getD i 0 ≤ l.getD j 0 + 1

/-! ### Generic list lemmas -/

theorem maxCount_ge {l : List ℕ} {x : ℕ} (hx : x ∈ l) : x ≤ maxCount l := by
  induction l with
  | nil => cases hx
  | cons a t ih =>
    rcases List.mem_cons.mp hx with h | h
    · subst h; exact le_max_left _ _
    · exact le_trans (ih h) (le_max_right _ _)

theorem maxCount_mem {l : List ℕ} (h : l ≠ []) : maxCount l ∈ l := by
  induction l with
  | nil => exact absurd rfl h
  | cons a t ih =>
    by_cases ht : t = []
    · subst ht; simp [maxCount]
    · rcases le_or_lt (maxCount t) a with hle | hlt
      · have hm : maxCount (a :: t) = a := max_eq_left hle
        rw [hm]; exact List.mem_cons_self _ _
      · have hm : maxCount (a :: t) = maxCount t := max_eq_right (le_of_lt hlt)
        rw [hm]; exact List.mem_cons_of_mem _ (ih ht)

theorem maxCount_getD {l : List ℕ} (h : l ≠ []) :
    ∃ j, j < l.length ∧ l.getD j 0 = maxCount l := by
  obtain ⟨j, hj, hx⟩ := List.mem_iff_getElem.mp (maxCount_mem h)
  exact ⟨j, hj, by rw [List.getD_eq_getElem _ _ hj, hx]⟩

theorem getD_le_maxCount {l : List ℕ} {j : ℕ} (hj : j < l.length) :
    l.getD j 0 ≤ maxCount l := by
  rw [List.getD_eq_getElem _ _ hj]
  exact maxCount_ge (List.getElem_mem hj)

theorem mem_le_sum {l : List ℕ} {x : ℕ} (hx : x ∈ l) : x ≤ l.sum := by
  induction l with
  | nil => cases hx
  | cons a t ih =>
    rcases List.mem_cons.mp hx with h | h
    · subst h; exact Nat.le_add_right _ _
    · exact le_trans (ih h) (by simp)

theorem maxCount_pos_of_sum_pos {l : List ℕ} (h : 0 < l.sum) : 0 < maxCount l := by
  by_contra hc
  push_neg at hc
  have hz : ∀ x ∈ l, x = 0 := fun x hx =>
    Nat.le_zero.mp (le_trans (maxCount_ge hx) hc)
  rw [List.sum_eq_zero_iff.mpr hz] at h
  exact absurd h (lt_irrefl 0)

theorem getD_set_ne {α : Type} {l : List α} {i j : ℕ} {a d : α} (h : i ≠ j) :
    (l.set i a).getD j d = l.getD j d := by
  simp [List.getD_eq_getElem?_getD, List.getElem?_set_ne h]

theorem getD_set_self {α : Type} {l : List α} {i : ℕ} {a d : α} (h : i < l.length) :
    (l.set i a).getD i d = a := by
  simp [List.getD_eq_getElem?_getD, List.getElem?_set_self h]

theorem getD_of_length_le {α : Type} {l : List α} {i : ℕ} {d : α} (h : l.length ≤ i) :
    l.getD i d = d := by
  simp [List.getD_eq_getElem?_getD, List.getElem?_eq_none h]

theorem getD_set_apply {α : Type} (pools : List (List α)) (c : ℕ) (f : List α → List α)
    (hf : f [] = []) :
    (pools.set c (f (pools.getD c []))).getD c [] = f (pools.getD c []) := by
  rcases lt_or_le c pools.length with h | h
  · exact getD_set_self h
  · rw [List.set_eq_of_length_le h, getD_of_length_le h, hf]

theorem getD_set_sub {α : Type} (pools : List (List α)) (c c' : ℕ) (x : List α)
    (hx : ∀ y ∈ x, y ∈ pools.getD c [])
    {y : α} (hy : y ∈ (pools.set c x).getD c' []) : y ∈ pools.getD c' [] := by
  rcases eq_or_ne c c' with h | h
  · subst h
    rcases lt_or_le c pools.length with hl | hl
    · rw [getD_set_self hl] at hy; exact hx y hy
    · rwa [List.set_eq_of_length_le hl] at hy
  · rwa [getD_set_ne h] at hy

theorem decAt_length (l : List ℕ) (j : ℕ) : (decAt l j).length = l.length :=
  List.length_set l j _

theorem decAt_getD_self {l : List ℕ} {j : ℕ} (h : j < l.length) :
    (decAt l j).getD j 0 = l.getD j 0 - 1 :=
  getD_set_self h

theorem decAt_getD_ne {l : List ℕ} {j x : ℕ} (h : j ≠ x) :
    (decAt l j).getD x 0 = l.getD x 0 :=
  getD_set_ne h

theorem decAt_sum : ∀ {l : List ℕ} {j : ℕ}, j < l.length → 1 ≤ l.getD j 0 →
    (decAt l j).sum = l.sum - 1
  | [], j, hj, _ => by simp at hj
  | a :: t, 0, _, h1 => by
    simp only [decAt, List.getD_cons_zero, List.set_cons_zero, List.sum_cons]
    simp only [List.getD_cons_zero] at h1
    omega
  | a :: t, j + 1, hj, h1 => by
    have hj' : j < t.length := by simpa using hj
    have h1' : 1 ≤ t.getD j 0 := by simpa using h1
    have ih := decAt_sum hj' h1'
    have hmem : t.getD j 0 ≤ t.sum := by
      rw [List.getD_eq_getElem _ _ hj']
      exact mem_le_sum (List.getElem_mem hj')
    simp only [decAt, List.getD_cons_succ, List.set_cons_succ, List.sum_cons]
    simp only [decAt] at ih
    omega

theorem dropLast_sum_getLastD (l : List ℚ) : l.dropLast.sum + l.getLastD 0 = l.sum := by
  rcases eq_or_ne l [] with h | h
  · subst h; simp
  · conv_rhs => rw [← List.dropLast_append_getLast h]
    rw [List.sum_append, List.getLastD_eq_getLast?, List.getLast?_eq_getLast _ h]
    simp

theorem sum_map_div (l : List ℚ) (s : ℚ) : (l.map (fun x => x / s)).sum = l.sum / s := by
  induction l with
  | nil => simp
  | cons a t ih => simp [ih, add_div]

theorem sum_pos_of_mem_pos {l : List ℚ} (h : ∀ x ∈ l, 0 < x) (hne : l ≠ []) :
    0 < l.sum := by
  induction l with
  | nil => exact absurd rfl hne
  | cons a t ih =>
    rcases eq_or_ne t [] with ht | ht
    · subst ht; simpa using h a (by simp)
    · have := ih (fun x hx => h x (List.mem_cons_of_mem _ hx)) ht
      have ha := h a (by simp)
      simp only [List.sum_cons]
      linarith

/-! ### Lemmas about `pyInt` and `end_idx` -/

theorem pyInt_of_nonneg {q : ℚ} (h : 0 ≤ q) : pyInt q = ⌊q⌋ := if_pos h

theorem end_idx_eq_floor {n : ℕ} {p : ℚ} (hp : 0 ≤ p) :
    end_idx n p = (⌊(n : ℚ) * p⌋).toNat := by
  rw [end_idx, pyInt_of_nonneg (mul_nonneg (by positivity) hp)]

/-- Sum of the `(class, proportion)` pairs of class `c` in a flat pair list. -/
def pairProbSum (c : ℕ) (pairs : List (ℕ × ℚ)) : ℚ :=
  ((pairs.filter (fun pr => pr.1 == c)).map Prod.snd).sum

/-- Sum of the floored prefix lengths `end_idx` requested from class `c` by a
flat pair list. -/
def Esum (labels : List ℕ) (c : ℕ) (pairs : List (ℕ × ℚ)) : ℕ :=
  ((pairs.filter (fun pr => pr.1 == c)).map
    (fun pr => end_idx (num_samples labels c) pr.2)).sum

theorem pairProbSum_nil (c : ℕ) : pairProbSum c [] = 0 := rfl

theorem pairProbSum_cons (c : ℕ) (pr : ℕ × ℚ) (rest : List (ℕ × ℚ)) :
    pairProbSum c (pr :: rest) =
      (if pr.1 = c then pr.2 else 0) + pairProbSum c rest := by
  rcases eq_or_ne pr.1 c with h | h
  · simp [pairProbSum, List.filter_cons, h]
  · simp [pairProbSum, List.filter_cons, h]

theorem pairProbSum_append (c : ℕ) (l1 l2 : List (ℕ × ℚ)) :
    pairProbSum c (l1 ++ l2) = pairProbSum c l1 + pairProbSum c l2 := by
  simp [pairProbSum, List.filter_append]

theorem pairProbSum_nonneg {c : ℕ} {pairs : List (ℕ × ℚ)}
    (h : ∀ pr ∈ pairs, pr.1 = c → 0 ≤ pr.2) : 0 ≤ pairProbSum c pairs := by
  refine List.sum_nonneg ?_
  intro x hx
  obtain ⟨pr, hpr, rfl⟩ := List.mem_map.mp hx
  have := List.mem_filter.mp hpr
  exact h pr this.1 (by simpa using this.2)

theorem Esum_nil (labels : List ℕ) (c : ℕ) : Esum labels c [] = 0 := rfl

theorem Esum_cons (labels : List ℕ) (c : ℕ) (pr : ℕ × ℚ) (rest : List (ℕ × ℚ)) :
    Esum labels c (pr :: rest) =
      (if pr.1 = c then end_idx (num_samples labels c) pr.2 else 0)
        + Esum labels c rest := by
  rcases eq_or_ne pr.1 c with h | h
  · simp [Esum, List.filter_cons, h]
  · simp [Esum, List.filter_cons, h]

theorem Esum_append (labels : List ℕ) (c : ℕ) (l1 l2 : List (ℕ × ℚ)) :
    Esum labels c (l1 ++ l2) = Esum labels c l1 + Esum labels c l2 := by
  simp [Esum, List.filter_append]

theorem floor_add_floor_le (a b : ℚ) : ⌊a⌋ + ⌊b⌋ ≤ ⌊a + b⌋ := by
  rw [Int.le_floor]
  push_cast
  exact add_le_add (Int.floor_le a) (Int.floor_le b)

/-- The requested floored prefix lengths for class `c` sum to at most the
floor of `n` times the total proportion requested from `c`. -/
theorem Esum_le_floor (labels : List ℕ) (c : ℕ) :
    ∀ pairs : List (ℕ × ℚ), (∀ pr ∈ pairs, pr.1 = c → 0 ≤ pr.2) →
    (Esum labels c pairs : ℤ) ≤ ⌊(num_samples labels c : ℚ) * pairProbSum c pairs⌋
  | [], _ => by simp [Esum_nil, pairProbSum_nil]
  | pr :: rest, h => by
    have hrest := Esum_le_floor labels c rest (fun x hx => h x (List.mem_cons_of_mem _ hx))
    have hSnn : 0 ≤ pairProbSum c rest :=
      pairProbSum_nonneg (fun x hx => h x (List.mem_cons_of_mem _ hx))
    rw [Esum_cons, pairProbSum_cons]
    rcases eq_or_ne pr.1 c with hc | hc
    · have hp : 0 ≤ pr.2 := h pr (by simp) hc
      simp only [hc, if_pos rfl] at *
      have h1 : (end_idx (num_samples labels c) pr.2 : ℤ)
          = ⌊(num_samples labels c : ℚ) * pr.2⌋ := by
        rw [end_idx_eq_floor hp]
        exact Int.toNat_of_nonneg (Int.floor_nonneg.mpr (by positivity))
      push_cast
      rw [h1]
      calc ⌊(num_samples labels c : ℚ) * pr.2⌋ + (Esum labels c rest : ℤ)
          ≤ ⌊(num_samples labels c : ℚ) * pr.2⌋
            + ⌊(num_samples labels c : ℚ) * pairProbSum c rest⌋ := by
            exact add_le_add_left hrest _
        _ ≤ ⌊(num_samples labels c : ℚ) * pr.2
            + (num_samples labels c : ℚ) * pairProbSum c rest⌋ :=
            floor_add_floor_le _ _
        _ = ⌊(num_samples labels c : ℚ) * (pr.2 + pairProbSum c rest)⌋ := by
            ring_nf
    · simp only [if_neg hc, zero_add]
      exact hrest

/-- If the proportions requested from class `c` are nonnegative and sum to at
most 1, the floored prefix lengths sum to at most the class sample count. -/
theorem Esum_le (labels : List ℕ) (c : ℕ) (pairs : List (ℕ × ℚ))
    (hnn : ∀ pr ∈ pairs, pr.1 = c → 0 ≤ pr.2)
    (hsum : pairProbSum c pairs ≤ 1) :
    Esum labels c pairs ≤ num_samples labels c := by
  have h1 := Esum_le_floor labels c pairs hnn
  have h2 : ⌊(num_samples labels c : ℚ) * pairProbSum c pairs⌋
      ≤ (num_samples labels c : ℤ) := by
    calc ⌊(num_samples labels c : ℚ) * pairProbSum c pairs⌋
        ≤ ⌊(num_samples labels c : ℚ)⌋ := by
          apply Int.floor_mono
          nlinarith [pairProbSum_nonneg hnn]
      _ = (num_samples labels c : ℤ) := Int.floor_natCast _
  exact_mod_cast le_trans h1 h2

/-! ### Lemmas about `data_class_idx` -/

theorem mem_data_class_idx {labels : List ℕ} {c x : ℕ} :
    x ∈ data_class_idx labels c ↔ x < labels.length ∧ labels.getD x 0 = c := by
  simp [data_class_idx, List.mem_filter, List.mem_range]

theorem nodup_data_class_idx (labels : List ℕ) (c : ℕ) :
    (data_class_idx labels c).Nodup :=
  (List.nodup_range _).filter _

theorem length_data_class_idx (labels : List ℕ) (c : ℕ) :
    (data_class_idx labels c).length = num_samples labels c := by
  rw [data_class_idx, num_samples, ← List.countP_eq_length_filter, List.count_eq_countP]
  induction labels with
  | nil => simp
  | cons a t ih =>
    rw [List.length_cons, List.range_succ_eq_map, List.countP_cons, List.countP_map,
      List.countP_cons]
    have harg : ((fun i => (a :: t).getD i 0 == c) ∘ Nat.succ)
        = (fun i => t.getD i 0 == c) := by
      funext i
      simp [Function.comp, List.getD_cons_succ]
    rw [harg, ih]
    simp [List.getD_cons_zero]

theorem data_class_idx_eq_nil {labels : List ℕ} {c : ℕ}
    (h : ∀ x ∈ labels, x ≠ c) : data_class_idx labels c = [] := by
  rw [List.eq_nil_iff_forall_not_mem]
  intro x hx
  obtain ⟨hlt, heq⟩ := mem_data_class_idx.mp hx
  have hmem : labels.getD x 0 ∈ labels := by
    rw [List.getD_eq_getElem _ _ hlt]
    exact List.getElem_mem hlt
  exact h _ hmem heq

/-- The identity shuffle satisfies the `Shuffled` relation whenever the labels
are canonical. -/
theorem initPools_shuffled {labels : List ℕ} (h : Canonical labels) :
    Shuffled labels (initPools labels) := by
  intro c
  rcases lt_or_le c (numClasses labels) with hc | hc
  · have : (initPools labels).getD c [] = data_class_idx labels c := by
      rw [initPools, List.getD_eq_getElem?_getD, List.getElem?_map,
        List.getElem?_range hc]
      rfl
    rw [this]
  · have h1 : (initPools labels).getD c [] = [] := by
      apply getD_of_length_le
      simpa [initPools] using hc
    have h2 : data_class_idx labels c = [] :=
      data_class_idx_eq_nil (fun x hx => by
        have := h x hx
        omega)
    rw [h1, h2]

/-! ### Lemmas about `assignPairs` and `splitUsers` -/

theorem assignPairs_append (labels : List ℕ) :
    ∀ (l1 l2 : List (ℕ × ℚ)) (pools : List (List ℕ)),
    assignPairs labels (l1 ++ l2) pools =
      ((assignPairs labels l2 (assignPairs labels l1 pools).1).1,
        (assignPairs labels l1 pools).2
          ++ (assignPairs labels l2 (assignPairs labels l1 pools).1).2)
  | [], l2, pools => by simp [assignPairs]
  | cp :: rest, l2, pools => by
    simp only [List.cons_append, assignPairs, List.append_eq]
    rw [assignPairs_append labels rest l2]

theorem splitUsers_fst_eq (labels : List ℕ) :
    ∀ (plans : List (List (ℕ × ℚ))) (pools : List (List ℕ)),
    (splitUsers labels plans pools).1 = (assignPairs labels plans.flatten pools).1
  | [], pools => by simp [splitUsers, assignPairs]
  | upairs :: rest, pools => by
    simp only [splitUsers, List.flatten_cons]
    rw [splitUsers_fst_eq labels rest, assignPairs_append]

theorem splitUsers_takes_flatten (labels : List ℕ) :
    ∀ (plans : List (List (ℕ × ℚ))) (pools : List (List ℕ)),
    ((splitUsers labels plans pools).2.map List.flatten).flatten
      = (assignPairs labels plans.flatten pools).2.flatten
  | [], pools => by simp [splitUsers, assignPairs]
  | upairs :: rest, pools => by
    simp only [splitUsers, List.flatten_cons, List.map_cons]
    rw [splitUsers_takes_flatten labels rest, assignPairs_append, List.flatten_append]

/-- After a user's inner loop, the pool of class `c` shrank by exactly the
floored requests of its class-`c` pairs, provided they all fit. -/
theorem assignPairs_pool_length (labels : List ℕ) :
    ∀ (pairs : List (ℕ × ℚ)) (pools : List (List ℕ)) (c : ℕ),
    Esum labels c pairs ≤ (pools.getD c []).length →
    ((assignPairs labels pairs pools).1.getD c []).length
      = (pools.getD c []).length - Esum labels c pairs
  | [], pools, c, _ => by simp [assignPairs, Esum_nil]
  | cp :: rest, pools, c, h => by
    simp only [assignPairs]
    rcases eq_or_ne cp.1 c with hc | hc
    · subst hc
      rw [Esum_cons, if_pos rfl] at h ⊢
      set e := end_idx (num_samples labels cp.1) cp.2 with he
      have hset : (pools.set cp.1 ((pools.getD cp.1 []).drop e)).getD cp.1 []
          = (pools.getD cp.1 []).drop e :=
        getD_set_apply pools cp.1 (List.drop e) (by simp)
      have hlen : ((pools.set cp.1 ((pools.getD cp.1 []).drop e)).getD cp.1 []).length
          = (pools.getD cp.1 []).length - e := by
        rw [hset, List.length_drop]
      have hrec := assignPairs_pool_length labels rest
        (pools.set cp.1 ((pools.getD cp.1 []).drop e)) cp.1 (by rw [hlen]; omega)
      rw [hrec, hlen]
      omega
    · rw [Esum_cons, if_neg hc] at h ⊢
      have hset : (pools.set cp.1 ((pools.getD cp.1 []).drop
          (end_idx (num_samples labels cp.1) cp.2))).getD c [] = pools.getD c [] :=
        getD_set_ne hc
      have hrec := assignPairs_pool_length labels rest
        (pools.set cp.1 ((pools.getD cp.1 []).drop
          (end_idx (num_samples labels cp.1) cp.2))) c (by rw [hset]; omega)
      rw [hrec, hset]
      omega

/-- Within a user's inner loop, every slice is taken in full: its length is
exactly the floored request, provided all class totals fit. -/
theorem assignPairs_take_length (labels : List ℕ) :
    ∀ (pairs : List (ℕ × ℚ)) (pools : List (List ℕ)) (i : ℕ) (cp : ℕ × ℚ),
    pairs[i]? = some cp →
    (∀ c, Esum labels c pairs ≤ (pools.getD c []).length) →
    (((assignPairs labels pairs pools).2.getD i []).length
      = end_idx (num_samples labels cp.1) cp.2)
  | [], pools, i, cp, hi, _ => by simp at hi
  | pr :: rest, pools, 0, cp, hi, h => by
    have hcp : pr = cp := by simpa using hi
    subst hcp
    simp only [assignPairs, List.getD_cons_zero, List.length_take]
    have hE := h pr.1
    rw [Esum_cons, if_pos rfl] at hE
    omega
  | pr :: rest, pools, i + 1, cp, hi, h => by
    simp only [List.getElem?_cons_succ] at hi
    simp only [assignPairs, List.getD_cons_succ]
    apply assignPairs_take_length labels rest _ i cp hi
    intro c
    set e := end_idx (num_samples labels pr.1) pr.2 with he
    have hE := h c
    rcases eq_or_ne pr.1 c with hc | hc
    · subst hc
      rw [Esum_cons, if_pos rfl] at hE
      have hset : (pools.set pr.1 ((pools.getD pr.1 []).drop e)).getD pr.1 []
          = (pools.getD pr.1 []).drop e :=
        getD_set_apply pools pr.1 (List.drop e) (by simp)
      rw [hset, List.length_drop]
      omega
    · rw [Esum_cons, if_neg hc] at hE
      rw [getD_set_ne hc]
      omega

/-- Pools only shrink during a user's inner loop. -/
theorem assignPairs_pool_sub (labels : List ℕ) :
    ∀ (pairs : List (ℕ × ℚ)) (pools : List (List ℕ)) (c : ℕ) {x : ℕ},
    x ∈ (assignPairs labels pairs pools).1.getD c [] → x ∈ pools.getD c []
  | [], pools, c, x, hx => hx
  | cp :: rest, pools, c, x, hx => by
    simp only [assignPairs] at hx
    have h1 := assignPairs_pool_sub labels rest _ c hx
    exact getD_set_sub pools cp.1 c _ (fun y hy => List.drop_subset _ _ hy) h1

/-- Every element of a slice taken during a user's inner loop comes from the
pool, at loop entry, of the class of the corresponding pair. -/
theorem assignPairs_take_mem (labels : List ℕ) :
    ∀ (pairs : List (ℕ × ℚ)) (pools : List (List ℕ)) {x : ℕ},
    x ∈ (assignPairs labels pairs pools).2.flatten →
    ∃ cp ∈ pairs, x ∈ pools.getD cp.1 []
  | [], pools, x, hx => by simp [assignPairs] at hx
  | cp :: rest, pools, x, hx => by
    simp only [assignPairs, List.flatten_cons, List.mem_append] at hx
    rcases hx with hx | hx
    · exact ⟨cp, by simp, List.take_subset _ _ hx⟩
    · obtain ⟨cp', hcp', hx'⟩ := assignPairs_take_mem labels rest _ hx
      refine ⟨cp', List.mem_cons_of_mem _ hcp', ?_⟩
      exact getD_set_sub pools cp.1 cp'.1 _ (fun y hy => List.drop_subset _ _ hy) hx'

/-- Elements of a client's index list trace back to the pool, at `splitUsers`
entry, of one of the client's planned classes. -/
theorem splitUsers_take_mem (labels : List ℕ) :
    ∀ (plans : List (List (ℕ × ℚ))) (pools : List (List ℕ)) (u : ℕ) {x : ℕ},
    x ∈ ((splitUsers labels plans pools).2.getD u []).flatten →
    ∃ cp ∈ plans.getD u [], x ∈ pools.getD cp.1 []
  | [], pools, u, x, hx => by simp [splitUsers] at hx
  | upairs :: rest, pools, 0, x, hx => by
    simp only [splitUsers, List.getD_cons_zero] at hx ⊢
    exact assignPairs_take_mem labels upairs pools hx
  | upairs :: rest, pools, u + 1, x, hx => by
    simp only [splitUsers, List.getD_cons_succ] at hx ⊢
    obtain ⟨cp, hcp, hx'⟩ := splitUsers_take_mem labels rest _ u hx
    exact ⟨cp, hcp, assignPairs_pool_sub labels upairs pools cp.1 hx'⟩

/-- Every slice of every client is taken in full whenever every class's total
floored request fits in its pool. -/
theorem splitUsers_take_length (labels : List ℕ) :
    ∀ (plans : List (List (ℕ × ℚ))) (pools : List (List ℕ)),
    (∀ c, Esum labels c plans.flatten ≤ (pools.getD c []).length) →
    ∀ (u i : ℕ) (cp : ℕ × ℚ), (plans.getD u [])[i]? = some cp →
    (((splitUsers labels plans pools).2.getD u []).getD i []).length
      = end_idx (num_samples labels cp.1) cp.2
  | [], pools, hE, u, i, cp, hi => by simp at hi
  | upairs :: rest, pools, hE, 0, i, cp, hi => by
    simp only [List.getD_cons_zero] at hi
    simp only [splitUsers, List.getD_cons_zero]
    apply assignPairs_take_length labels upairs pools i cp hi
    intro c
    have := hE c
    rw [List.flatten_cons, Esum_append] at this
    omega
  | upairs :: rest, pools, hE, u + 1, i, cp, hi => by
    simp only [List.getD_cons_succ] at hi
    simp only [splitUsers, List.getD_cons_succ]
    apply splitUsers_take_length labels rest _ _ u i cp hi
    intro c
    have h1 := hE c
    rw [List.flatten_cons, Esum_append] at h1
    have h2 : Esum labels c upairs ≤ (pools.getD c []).length := by omega
    rw [assignPairs_pool_length labels upairs pools c h2]
    omega

/-! ### Conservation of indices (multiset form) -/

theorem flatten_set_ms (pools : List (List ℕ)) :
    ∀ (c : ℕ) (x : List ℕ), c < pools.length →
    ((pools.set c x).flatten : Multiset ℕ) + (pools.getD c [] : Multiset ℕ)
      = (pools.flatten : Multiset ℕ) + (x : Multiset ℕ) := by
  induction pools with
  | nil => intro c x h; simp at h
  | cons p ps ih =>
    intro c x h
    cases c with
    | zero =>
      simp only [List.set_cons_zero, List.flatten_cons, List.getD_cons_zero]
      rw [← Multiset.coe_add, ← Multiset.coe_add]
      abel
    | succ c =>
      simp only [List.set_cons_succ, List.flatten_cons, List.getD_cons_succ]
      have h' : c < ps.length := by simpa using h
      rw [← Multiset.coe_add, ← Multiset.coe_add]
      have := ih c x h'
      rw [add_assoc, this]
      abel

/-- A user's inner loop conserves indices: the slices taken plus the final
pools are, as a multiset, the initial pools. -/
theorem assignPairs_ms (labels : List ℕ) :
    ∀ (pairs : List (ℕ × ℚ)) (pools : List (List ℕ)),
    ((assignPairs labels pairs pools).2.flatten : Multiset ℕ)
        + ((assignPairs labels pairs pools).1.flatten : Multiset ℕ)
      = (pools.flatten : Multiset ℕ)
  | [], pools => by simp [assignPairs]
  | cp :: rest, pools => by
    simp only [assignPairs, List.flatten_cons]
    set e := end_idx (num_samples labels cp.1) cp.2 with he
    set pools1 := pools.set cp.1 ((pools.getD cp.1 []).drop e) with hp1
    have ih := assignPairs_ms labels rest pools1
    rw [← Multiset.coe_add]
    rw [add_assoc, ih]
    rcases lt_or_le cp.1 pools.length with hlt | hle
    · have hms := flatten_set_ms pools cp.1 ((pools.getD cp.1 []).drop e) hlt
      have hsplit : ((pools.getD cp.1 [] : List ℕ) : Multiset ℕ)
          = ((pools.getD cp.1 []).take e : Multiset ℕ)
            + ((pools.getD cp.1 []).drop e : Multiset ℕ) := by
        rw [Multiset.coe_add, List.take_append_drop]
      rw [hsplit] at hms
      have : (pools1.flatten : Multiset ℕ) + ((pools.getD cp.1 []).take e : Multiset ℕ)
          + ((pools.getD cp.1 []).drop e : Multiset ℕ)
          = (pools.flatten : Multiset ℕ) + ((pools.getD cp.1 []).drop e : Multiset ℕ) := by
        rw [← hms]; abel
      have hcancel := add_right_cancel this
      rw [← hcancel]
      abel
    · have hpool : pools.getD cp.1 [] = [] := getD_of_length_le hle
      rw [hp1, List.set_eq_of_length_le hle, hpool]
      simp

/-! ### Lemmas about `pickClass` and `pickLoop` -/

theorem mem_candidates {counts : List ℕ} {c : List ℕ} {j : ℕ} :
    j ∈ candidates counts c ↔
      j < counts.length ∧ counts.getD j 0 = maxCount counts ∧ j ∉ c := by
  simp [candidates, List.mem_filter, List.mem_range, List.elem_eq_mem, and_assoc]

theorem pickClass_some {r : ℕ} {counts : List ℕ} {c : List ℕ} {j : ℕ}
    (h : pickClass r counts c = some j) :
    j < counts.length ∧ counts.getD j 0 = maxCount counts ∧ j ∉ c := by
  have hj : j ∈ candidates counts c := by
    rw [pickClass] at h
    exact List.getElem?_mem h
  exact mem_candidates.mp hj

theorem pickClass_isSome {r : ℕ} {counts : List ℕ} {c : List ℕ}
    (h : candidates counts c ≠ []) : (pickClass r counts c).isSome := by
  rw [pickClass]
  have hlen : 0 < (candidates counts c).length := List.length_pos.mpr h
  have : r % (candidates counts c).length < (candidates counts c).length :=
    Nat.mod_lt _ hlen
  simp [List.getElem?_eq_getElem this]

theorem pickClass_none {r : ℕ} {counts : List ℕ} {c : List ℕ}
    (h : pickClass r counts c = none) :
    ∀ j, j < counts.length → counts.getD j 0 = maxCount counts → j ∈ c := by
  intro j hj hmax
  by_contra hjc
  have := @pickClass_isSome r counts c (fun hnil => by
    have : j ∈ candidates counts c := mem_candidates.mpr ⟨hj, hmax, hjc⟩
    rw [hnil] at this
    cases this)
  rw [h] at this
  cases this

/-- Master invariant of the inner pick loop: lengths, budget totals, per-class
budget/occurrence bookkeeping, and well-formedness of the chosen class list.
The hypothesis `n ≤ counts.sum` guarantees every decrement is genuine. -/
theorem pickLoop_spec (rnd : ℕ → ℕ) :
    ∀ (n t : ℕ) (counts c counts2 c2 : List ℕ),
    pickLoop rnd t n counts c = some (counts2, c2) →
    n ≤ counts.sum →
    counts2.length = counts.length ∧
    counts2.sum = counts.sum - n ∧
    c2.length = c.length + n ∧
    (∀ x, counts2.getD x 0 + c2.count x = counts.getD x 0 + c.count x) ∧
    (c.Nodup → c2.Nodup) ∧
    (∀ j ∈ c2, j ∈ c ∨ j < counts.length)
  | 0, t, counts, c, counts2, c2, h, _ => by
    simp only [pickLoop, Option.some_inj, Prod.mk.injEq] at h
    obtain ⟨h1, h2⟩ := h
    subst h1; subst h2
    exact ⟨rfl, by omega, by omega, fun x => rfl, fun h => h, fun j hj => Or.inl hj⟩
  | n + 1, t, counts, c, counts2, c2, h, hsum => by
    simp only [pickLoop] at h
    rcases hp : pickClass (rnd t) counts c with _ | j
    · rw [hp] at h; cases h
    · rw [hp] at h
      obtain ⟨hjlen, hjmax, hjc⟩ := pickClass_some hp
      have hmaxpos : 0 < maxCount counts := maxCount_pos_of_sum_pos (by omega)
      have hdeclen : (decAt counts j).length = counts.length := decAt_length _ _
      have hdecsum : (decAt counts j).sum = counts.sum - 1 :=
        decAt_sum hjlen (by omega)
      have ih := pickLoop_spec rnd n (t + 1) (decAt counts j) (c ++ [j]) counts2 c2 h
        (by omega)
      obtain ⟨i1, i2, i3, i4, i5, i6⟩ := ih
      refine ⟨by omega, by omega, by simp at i3; omega, ?_, ?_, ?_⟩
      · intro x
        have h4 := i4 x
        rcases eq_or_ne j x with hx | hx
        · subst hx
          rw [decAt_getD_self hjlen] at h4
          have hcount : (c ++ [j]).count j = c.count j + 1 := by
            simp [List.count_append]
          rw [hcount] at h4
          omega
        · rw [decAt_getD_ne hx] at h4
          have hcount : (c ++ [j]).count x = c.count x := by
            simp [List.count_append, List.count_singleton, hx]
          rw [hcount] at h4
          omega
      · intro hnd
        apply i5
        simp [List.nodup_append, hnd, hjc]
      · intro x hx
        rcases i6 x hx with hx' | hx'
        · rcases List.mem_append.mp hx' with h | h
          · exact Or.inl h
          · simp only [List.mem_singleton] at h
            subst h
            exact Or.inr hjlen
        · rw [hdeclen] at hx'
          exact Or.inr hx'

/-- Decrementing a class currently at the maximum keeps the budgets within
one of each other. -/
theorem balanced_decAt {counts : List ℕ} {j : ℕ} (hjlen : j < counts.length)
    (hjmax : counts.getD j 0 = maxCount counts) (hb : Balanced counts) :
    Balanced (decAt counts j) := by
  unfold Balanced at hb ⊢
  intro i hi i' hi'
  rw [decAt_length] at hi hi'
  have hmax_i : counts.getD i 0 ≤ maxCount counts := getD_le_maxCount hi
  by_cases hji : i = j <;> by_cases hji' : i' = j
  · rw [hji, hji']
    omega
  · rw [hji, decAt_getD_self hjlen, decAt_getD_ne (Ne.symm hji')]
    have h1 := hb j hjlen i' hi'
    omega
  · rw [hji', decAt_getD_ne (fun h => hji h.symm), decAt_getD_self hjlen]
    omega
  · rw [decAt_getD_ne (fun h => hji h.symm), decAt_getD_ne (fun h => hji' h.symm)]
    exact hb i hi i' hi'

/-- A successful pick loop preserves balancedness of the budgets: every
executed pick decrements a class currently at the maximum. -/
theorem pickLoop_balanced (rnd : ℕ → ℕ) :
    ∀ (n t : ℕ) (counts c counts2 c2 : List ℕ),
    pickLoop rnd t n counts c = some (counts2, c2) →
    Balanced counts → Balanced counts2
  | 0, t, counts, c, counts2, c2, h, hb => by
    simp only [pickLoop, Option.some_inj, Prod.mk.injEq] at h
    obtain ⟨h1, _⟩ := h
    subst h1
    exact hb
  | n + 1, t, counts, c, counts2, c2, h, hb => by
    simp only [pickLoop] at h
    rcases hp : pickClass (rnd t) counts c with _ | j
    · rw [hp] at h; cases h
    · rw [hp] at h
      obtain ⟨hjlen, hjmax, _⟩ := pickClass_some hp
      exact pickLoop_balanced rnd n (t + 1) (decAt counts j) (c ++ [j]) counts2 c2 h
        (balanced_decAt hjlen hjmax hb)

theorem exists_not_mem_of_length_lt {c : List ℕ} {k : ℕ} (hnd : c.Nodup)
    (hcard : c.length < k) : ∃ l, l < k ∧ l ∉ c := by
  by_contra h
  push_neg at h
  have hsub : Finset.range k ⊆ c.toFinset := by
    intro l hl
    rw [List.mem_toFinset]
    exact h l (Finset.mem_range.mp hl)
  have hcard2 := Finset.card_le_card hsub
  rw [Finset.card_range, List.toFinset_card_of_nodup hnd] at hcard2
  omega

/-- Totality of the inner pick loop: when the budgets entered the current
client's loop balanced (`v`), the classes already chosen this round sit one
below their entry value, and fewer classes than `num_classes` have been
chosen, the candidate list of `np.random.choice` is never empty. -/
theorem pickLoop_total (rnd : ℕ → ℕ) (v : List ℕ) (hbv : Balanced v) :
    ∀ (n t : ℕ) (counts c : List ℕ),
    Balanced counts →
    counts.length = v.length →
    (∀ x, counts.getD x 0 = v.getD x 0 - (if x ∈ c then 1 else 0)) →
    c.Nodup →
    c.length + n ≤ v.length →
    (pickLoop rnd t n counts c).isSome
  | 0, t, counts, c, _, _, _, _, _ => by simp [pickLoop]
  | n + 1, t, counts, c, hb, hlen, hrel, hnd, hcard => by
    have hkpos : 0 < v.length := by omega
    have hcne : counts ≠ [] := by
      intro h
      rw [h] at hlen
      simp at hlen
      omega
    have hcand : candidates counts c ≠ [] := by
      intro hnil
      have hallc : ∀ j, j < counts.length → counts.getD j 0 = maxCount counts → j ∈ c := by
        intro j hj hmax
        by_contra hjc
        have hmem : j ∈ candidates counts c := mem_candidates.mpr ⟨hj, hmax, hjc⟩
        rw [hnil] at hmem
        cases hmem
      obtain ⟨j0, hj0, hj0max⟩ := maxCount_getD hcne
      have hj0c : j0 ∈ c := hallc j0 hj0 hj0max
      obtain ⟨l0, hl0, hl0c⟩ := exists_not_mem_of_length_lt hnd
        (show c.length < v.length by omega)
      have hl0len : l0 < counts.length := by omega
      have hl0lt : counts.getD l0 0 < maxCount counts := by
        have hle := getD_le_maxCount hl0len
        rcases lt_or_eq_of_le hle with h | h
        · exact h
        · exact absurd (hallc l0 hl0len h) hl0c
      have hrl0 := hrel l0
      rw [if_neg hl0c] at hrl0
      have hrj0 := hrel j0
      rw [if_pos hj0c] at hrj0
      have hbv1 := hbv j0 (by omega) l0 hl0
      omega
    obtain ⟨j, hj⟩ := Option.isSome_iff_exists.mp (@pickClass_isSome (rnd t) counts c hcand)
    obtain ⟨hjlen, hjmax, hjc⟩ := pickClass_some hj
    have hrec := pickLoop_total rnd v hbv n (t + 1) (decAt counts j) (c ++ [j])
      (balanced_decAt hjlen hjmax hb)
      (by rw [decAt_length]; exact hlen)
      (by
        intro x
        rcases eq_or_ne x j with hx | hx
        · subst hx
          rw [decAt_getD_self hjlen, if_pos (by simp)]
          have := hrel x
          rw [if_neg hjc] at this
          omega
        · rw [decAt_getD_ne (Ne.symm hx)]
          have := hrel x
          rcases em (x ∈ c) with hxc | hxc
          · rw [if_pos hxc] at this
            rw [if_pos (List.mem_append_left _ hxc)]
            exact this
          · rw [if_neg hxc] at this
            rw [if_neg (by
              intro hmem
              rcases List.mem_append.mp hmem with h | h
              · exact hxc h
              · exact hx (List.mem_singleton.mp h))]
            exact this)
      (by simp [List.nodup_append, hnd, hjc])
      (by simp only [List.length_append, List.length_singleton]; omega)
    simp only [pickLoop, hj]
    exact hrec

theorem pickLoop_length (rnd : ℕ → ℕ) :
    ∀ (n t : ℕ) (counts c counts2 c2 : List ℕ),
    pickLoop rnd t n counts c = some (counts2, c2) →
    counts2.length = counts.length
  | 0, t, counts, c, counts2, c2, h => by
    simp only [pickLoop, Option.some_inj, Prod.mk.injEq] at h
    rw [← h.1]
  | n + 1, t, counts, c, counts2, c2, h => by
    simp only [pickLoop] at h
    rcases hp : pickClass (rnd t) counts c with _ | j
    · rw [hp] at h; cases h
    · rw [hp] at h
      have := pickLoop_length rnd n (t + 1) (decAt counts j) (c ++ [j]) counts2 c2 h
      rw [this, decAt_length]

/-! ### Lemmas about `popList` -/

theorem popList_len : ∀ (cl : List ℕ) (probs : List (List ℚ)),
    (popList probs cl).2.length = cl.length
  | [], probs => rfl
  | j :: rest, probs => by
    simp only [popList, List.length_cons]
    rw [popList_len rest]

/-- Popping conserves proportion mass per class: the popped `(class, value)`
pairs of class `c` plus the remaining list of class `c` sum to the previous
list of class `c`. -/
theorem popList_sum : ∀ (cl : List ℕ) (probs : List (List ℚ)) (c : ℕ),
    pairProbSum c (cl.zip (popList probs cl).2)
        + ((popList probs cl).1.getD c []).sum
      = (probs.getD c []).sum
  | [], probs, c => by simp [popList, pairProbSum_nil]
  | j :: rest, probs, c => by
    simp only [popList, List.zip_cons_cons]
    rw [pairProbSum_cons]
    have ih := popList_sum rest (probs.set j (probs.getD j []).dropLast) c
    rcases eq_or_ne j c with hc | hc
    · subst hc
      rw [getD_set_apply probs j List.dropLast rfl] at ih
      have hdl := dropLast_sum_getLastD (probs.getD j [])
      simp only [if_pos rfl, if_true]
      linarith
    · rw [getD_set_ne hc] at ih
      simp only [if_neg hc, zero_add]
      exact ih

theorem popList_nonneg : ∀ (cl : List ℕ) (probs : List (List ℚ)),
    (∀ c x, x ∈ probs.getD c [] → 0 ≤ x) →
    (∀ c x, x ∈ (popList probs cl).1.getD c [] → 0 ≤ x) ∧
    (∀ v ∈ (popList probs cl).2, 0 ≤ v)
  | [], probs, h => ⟨h, by simp [popList]⟩
  | j :: rest, probs, h => by
    have h1 : ∀ c x, x ∈ (probs.set j (probs.getD j []).dropLast).getD c [] → 0 ≤ x := by
      intro c x hx
      rcases eq_or_ne j c with hc | hc
      · subst hc
        rw [getD_set_apply probs j List.dropLast rfl] at hx
        exact h j x (List.Sublist.mem hx (List.dropLast_sublist _))
      · rw [getD_set_ne hc] at hx
        exact h c x hx
    have ih := popList_nonneg rest (probs.set j (probs.getD j []).dropLast) h1
    refine ⟨ih.1, ?_⟩
    intro v hv
    simp only [popList, List.mem_cons] at hv
    rcases hv with hv | hv
    · subst hv
      rcases eq_or_ne (probs.getD j []) [] with hnil | hnil
      · rw [hnil]
        simp
      · rw [List.getLastD_eq_getLast?, List.getLast?_eq_getLast _ hnil]
        exact h j _ (List.getLast_mem hnil)
    · exact ih.2 v hv

/-! ### Lemmas about `userLoop` -/

/-- Totality of the outer user loop: balanced budgets with
`classes_per_user ≤ num_classes` never hit an empty candidate list. -/
theorem userLoop_total (rnd : ℕ → ℕ) (cpu : ℕ) :
    ∀ (m t : ℕ) (st : ClassDict) (acc : Plan),
    Balanced st.counts →
    cpu ≤ st.counts.length →
    (userLoop rnd cpu t m st acc).isSome
  | 0, t, st, acc, _, _ => by simp [userLoop]
  | m + 1, t, st, acc, hb, hcpu => by
    have hpl := pickLoop_total rnd st.counts hb cpu t st.counts []
      hb rfl (by intro x; simp) List.nodup_nil (by simpa using hcpu)
    obtain ⟨out, hout⟩ := Option.isSome_iff_exists.mp hpl
    obtain ⟨counts2, c2⟩ := out
    have hbal2 := pickLoop_balanced rnd cpu t st.counts [] counts2 c2 hout hb
    have hlen2 := pickLoop_length rnd cpu t st.counts [] counts2 c2 hout
    simp only [userLoop, hout]
    exact userLoop_total rnd cpu m (t + cpu)
      ⟨counts2, (popList st.probs c2).1⟩
      ⟨acc.classes ++ [c2], acc.probs ++ [(popList st.probs c2).2]⟩
      hbal2 (by rw [hlen2]; exact hcpu)

/-- Flat list of `(class, proportion)` pairs of a plan, in the traversal
order of `gen_data_split`. -/
def planPairs (plan : Plan) : List (ℕ × ℚ) := (mkPairs plan).flatten

theorem planPairs_append (A : List (List ℕ)) (B : List (List ℚ)) (cl : List ℕ)
    (ps : List ℚ) (h : A.length = B.length) :
    planPairs ⟨A ++ [cl], B ++ [ps]⟩ = planPairs ⟨A, B⟩ ++ cl.zip ps := by
  simp [planPairs, mkPairs, List.zip_append h]

/-- Master invariant of the outer user loop: budget totals reach zero, the
per-class budget decrements equal the class occurrences in the plan, and every
client entry is a well-formed list of `classes_per_user` distinct classes. -/
theorem userLoop_master (rnd : ℕ → ℕ) (cpu : ℕ) :
    ∀ (m t : ℕ) (st : ClassDict) (acc : Plan) (out : ClassDict × Plan),
    userLoop rnd cpu t m st acc = some out →
    st.counts.sum = m * cpu →
    out.1.counts.length = st.counts.length ∧
    out.1.counts.sum = 0 ∧
    (∀ x, out.1.counts.getD x 0 + out.2.classes.flatten.count x
        = st.counts.getD x 0 + acc.classes.flatten.count x) ∧
    out.2.classes.length = acc.classes.length + m ∧
    out.2.probs.length = acc.probs.length + m ∧
    (∀ cl ∈ out.2.classes, cl ∈ acc.classes ∨
        (cl.length = cpu ∧ cl.Nodup ∧ ∀ j ∈ cl, j < st.counts.length))
  | 0, t, st, acc, out, h, hsum => by
    simp only [userLoop, Option.some_inj] at h
    subst h
    refine ⟨rfl, ?_, fun x => rfl, ?_, ?_, fun cl hcl => Or.inl hcl⟩
    · show st.counts.sum = 0
      omega
    · show acc.classes.length = acc.classes.length + 0
      omega
    · show acc.probs.length = acc.probs.length + 0
      omega
  | m + 1, t, st, acc, out, h, hsum => by
    simp only [userLoop] at h
    rcases hp : pickLoop rnd t cpu st.counts [] with _ | pl
    · rw [hp] at h; cases h
    · rw [hp] at h
      obtain ⟨counts2, c2⟩ := pl
      have hmul : (m + 1) * cpu = cpu + m * cpu := by ring
      have hspec := pickLoop_spec rnd cpu t st.counts [] counts2 c2 hp (by omega)
      obtain ⟨s1, s2, s3, s4, s5, s6⟩ := hspec
      have ih := userLoop_master rnd cpu m (t + cpu)
        ⟨counts2, (popList st.probs c2).1⟩
        ⟨acc.classes ++ [c2], acc.probs ++ [(popList st.probs c2).2]⟩ out h
        (by simp only at s2 ⊢; omega)
      obtain ⟨i1, i2, i3, i4, i5, i6⟩ := ih
      simp only at i1 i3 i4 i5 i6
      refine ⟨by omega, i2, ?_, by simp at i4; omega, by simp at i5; omega, ?_⟩
      · intro x
        have h3 := i3 x
        rw [List.flatten_append] at h3
        simp only [List.flatten_cons, List.flatten_nil, List.append_nil,
          List.count_append] at h3
        have h4 := s4 x
        simp only [List.count_nil] at h4
        omega
      · intro cl hcl
        rcases i6 cl hcl with hmem | hq
        · rcases List.mem_append.mp hmem with hmem' | hmem'
          · exact Or.inl hmem'
          · right
            have hcl2 : cl = c2 := List.mem_singleton.mp hmem'
            subst hcl2
            refine ⟨by simpa using s3, s5 List.nodup_nil, ?_⟩
            intro j hj
            rcases s6 j hj with hfalse | hlt
            · cases hfalse
            · exact hlt
        · exact Or.inr (by rw [← s1]; exact hq)

/-- The outer user loop conserves proportion mass: per class, the popped
proportions recorded in the plan plus the remaining proportion lists sum to
the initial proportion lists, and recorded proportions stay nonnegative. -/
theorem userLoop_probsum (rnd : ℕ → ℕ) (cpu : ℕ) :
    ∀ (m t : ℕ) (st : ClassDict) (acc : Plan) (out : ClassDict × Plan),
    userLoop rnd cpu t m st acc = some out →
    acc.classes.length = acc.probs.length →
    (∀ c x, x ∈ st.probs.getD c [] → 0 ≤ x) →
    (∀ c, pairProbSum c (planPairs out.2) + (out.1.probs.getD c []).sum
        = pairProbSum c (planPairs acc) + (st.probs.getD c []).sum) ∧
    (∀ pr ∈ planPairs out.2, pr ∈ planPairs acc ∨ 0 ≤ pr.2)
  | 0, t, st, acc, out, h, hpar, hnn => by
    simp only [userLoop, Option.some_inj] at h
    subst h
    exact ⟨fun c => rfl, fun pr hpr => Or.inl hpr⟩
  | m + 1, t, st, acc, out, h, hpar, hnn => by
    simp only [userLoop] at h
    rcases hp : pickLoop rnd t cpu st.counts [] with _ | pl
    · rw [hp] at h; cases h
    · rw [hp] at h
      obtain ⟨counts2, c2⟩ := pl
      have hnn1 := (popList_nonneg c2 st.probs hnn).1
      have hnnpop := (popList_nonneg c2 st.probs hnn).2
      have ih := userLoop_probsum rnd cpu m (t + cpu)
        ⟨counts2, (popList st.probs c2).1⟩
        ⟨acc.classes ++ [c2], acc.probs ++ [(popList st.probs c2).2]⟩ out h
        (by simp only [List.length_append, List.length_singleton]; omega)
        hnn1
      have happ := planPairs_append acc.classes acc.probs c2 (popList st.probs c2).2
        hpar
      constructor
      · intro c
        have ih1 := (ih.1 c)
        dsimp only at ih1
        rw [happ, pairProbSum_append] at ih1
        have hps := popList_sum c2 st.probs c
        linarith
      · intro pr hpr
        rcases ih.2 pr hpr with hmem | hge
        · rw [happ] at hmem
          rcases List.mem_append.mp hmem with hmem' | hmem'
          · exact Or.inl hmem'
          · right
            obtain ⟨a, b⟩ := pr
            exact hnnpop b (List.of_mem_zip hmem').2
        · exact Or.inr hge

/-- The remaining proportion lists stay elementwise nonnegative through the
outer user loop. -/
theorem userLoop_probs_nonneg (rnd : ℕ → ℕ) (cpu : ℕ) :
    ∀ (m t : ℕ) (st : ClassDict) (acc : Plan) (out : ClassDict × Plan),
    userLoop rnd cpu t m st acc = some out →
    (∀ c x, x ∈ st.probs.getD c [] → 0 ≤ x) →
    (∀ c x, x ∈ out.1.probs.getD c [] → 0 ≤ x)
  | 0, t, st, acc, out, h, hnn => by
    simp only [userLoop, Option.some_inj] at h
    subst h
    exact hnn
  | m + 1, t, st, acc, out, h, hnn => by
    simp only [userLoop] at h
    rcases hp : pickLoop rnd t cpu st.counts [] with _ | pl
    · rw [hp] at h; cases h
    · rw [hp] at h
      obtain ⟨counts2, c2⟩ := pl
      exact userLoop_probs_nonneg rnd cpu m (t + cpu)
        ⟨counts2, (popList st.probs c2).1⟩
        ⟨acc.classes ++ [c2], acc.probs ++ [(popList st.probs c2).2]⟩ out h
        (popList_nonneg c2 st.probs hnn).1

/-- Proportion lists stay aligned with class lists through the outer user
loop: entry `u` of the plan's `prob` list has the length of entry `u` of its
`class` list. -/
theorem userLoop_parallel (rnd : ℕ → ℕ) (cpu : ℕ) :
    ∀ (m t : ℕ) (st : ClassDict) (acc : Plan) (out : ClassDict × Plan),
    userLoop rnd cpu t m st acc = some out →
    (∀ u, (acc.probs.getD u []).length = (acc.classes.getD u []).length) →
    acc.classes.length = acc.probs.length →
    (∀ u, (out.2.probs.getD u []).length = (out.2.classes.getD u []).length)
  | 0, t, st, acc, out, h, hpar, hlen => by
    simp only [userLoop, Option.some_inj] at h
    subst h
    exact hpar
  | m + 1, t, st, acc, out, h, hpar, hlen => by
    simp only [userLoop] at h
    rcases hp : pickLoop rnd t cpu st.counts [] with _ | pl
    · rw [hp] at h; cases h
    · rw [hp] at h
      obtain ⟨counts2, c2⟩ := pl
      apply userLoop_parallel rnd cpu m (t + cpu)
        ⟨counts2, (popList st.probs c2).1⟩
        ⟨acc.classes ++ [c2], acc.probs ++ [(popList st.probs c2).2]⟩ out h
      · intro u
        dsimp only
        rcases lt_trichotomy u acc.classes.length with hu | hu | hu
        · rw [List.getD_append _ _ _ _ (by omega), List.getD_append _ _ _ _ hu]
          exact hpar u
        · rw [List.getD_append_right _ _ _ u (by omega),
            List.getD_append_right _ _ _ u (by omega)]
          have e1 : u - acc.probs.length = 0 := by omega
          have e2 : u - acc.classes.length = 0 := by omega
          rw [e1, e2]
          simp only [List.getD_cons_zero]
          exact popList_len c2 st.probs
        · have h1 : (acc.classes ++ [c2]).length ≤ u := by
            simp only [List.length_append, List.length_singleton]
            omega
          have h2 : (acc.probs ++ [(popList st.probs c2).2]).length ≤ u := by
            simp only [List.length_append, List.length_singleton]
            omega
          rw [getD_of_length_le h1, getD_of_length_le h2]
          rfl
      · dsimp only
        simp only [List.length_append, List.length_singleton]
        omega

/-! ### Facts about `class_probs` and the initial state of
`gen_classes_per_node` -/

theorem class_probs_length (draw : ℕ → ℕ → ℚ) (cpc i : ℕ) :
    (class_probs draw cpc i).length = cpc := by
  simp [class_probs, normalize]

/-- Normalisation makes the drawn proportions of a class sum to exactly one
(in exact rational arithmetic), provided the draws are positive and there is
at least one of them. -/
theorem class_probs_sum_one {draw : ℕ → ℕ → ℚ} {cpc i : ℕ} {low : ℚ}
    (hlow : 0 < low) (hcpc : 0 < cpc) (hb : ∀ t, t < cpc → low ≤ draw i t) :
    (class_probs draw cpc i).sum = 1 := by
  set l := (List.range cpc).map (draw i) with hl
  have hpos : ∀ x ∈ l, 0 < x := by
    intro x hx
    obtain ⟨t, ht, rfl⟩ := List.mem_map.mp hx
    exact lt_of_lt_of_le hlow (hb t (List.mem_range.mp ht))
  have hne : l ≠ [] := by
    intro hnil
    have : l.length = 0 := by rw [hnil]; rfl
    rw [hl] at this
    simp at this
    omega
  have hs : 0 < l.sum := sum_pos_of_mem_pos hpos hne
  rw [class_probs, normalize, sum_map_div]
  exact div_self (ne_of_gt hs)

theorem class_probs_nonneg {draw : ℕ → ℕ → ℚ} {cpc i : ℕ} {low : ℚ}
    (hlow : 0 ≤ low) (hb : ∀ t, t < cpc → low ≤ draw i t) :
    ∀ x ∈ class_probs draw cpc i, 0 ≤ x := by
  intro x hx
  rw [class_probs, normalize] at hx
  obtain ⟨y, hy, rfl⟩ := List.mem_map.mp hx
  have hynn : ∀ z ∈ (List.range cpc).map (draw i), 0 ≤ z := by
    intro z hz
    obtain ⟨t, ht, rfl⟩ := List.mem_map.mp hz
    exact le_trans hlow (hb t (List.mem_range.mp ht))
  exact div_nonneg (hynn y hy) (List.sum_nonneg hynn)

/-- Entry `c` of the initial per-class proportion table of
`gen_classes_per_node`. -/
theorem initProbs_getD (draw : ℕ → ℕ → ℚ) (cpc k c : ℕ) :
    ((List.range k).map (class_probs draw cpc)).getD c []
      = if c < k then class_probs draw cpc c else [] := by
  rcases lt_or_le c k with hc | hc
  · rw [if_pos hc, List.getD_eq_getElem?_getD, List.getElem?_map, List.getElem?_range hc]
    rfl
  · rw [if_neg (by omega), getD_of_length_le (by simpa using hc)]

/-- Elimination form of a successful `gen_classes_per_node` run. -/
theorem gen_some_elim {labels : List ℕ} {nu cpu : ℕ} {draw : ℕ → ℕ → ℚ}
    {rnd : ℕ → ℕ} {out : ClassDict × Plan}
    (h : gen_classes_per_node labels nu cpu draw rnd = some out) :
    (cpu * nu) % numClasses labels = 0 ∧
    userLoop rnd cpu 0 nu
      ⟨List.replicate (numClasses labels) ((cpu * nu) / numClasses labels),
        (List.range (numClasses labels)).map
          (class_probs draw ((cpu * nu) / numClasses labels))⟩
      ⟨[], []⟩ = some out := by
  rw [gen_classes_per_node] at h
  by_cases hdiv : (cpu * nu) % numClasses labels = 0
  · rw [if_pos hdiv] at h
    exact ⟨hdiv, h⟩
  · rw [if_neg hdiv] at h
    cases h

/-- In every plan returned by `gen_classes_per_node` (under the default
positive sampling bounds) the proportions attached to class `c` across all
clients are nonnegative and sum to at most one. -/
theorem gen_plan_probs {labels : List ℕ} {nu cpu : ℕ} {draw : ℕ → ℕ → ℚ}
    {rnd : ℕ → ℕ} {out : ClassDict × Plan} {low : ℚ}
    (hgen : gen_classes_per_node labels nu cpu draw rnd = some out)
    (hlow : 0 < low) (hdraw : ∀ i t, low ≤ draw i t) :
    (∀ c, pairProbSum c (planPairs out.2) ≤ 1) ∧
    (∀ pr ∈ planPairs out.2, 0 ≤ pr.2) := by
  obtain ⟨hdiv, hrun⟩ := gen_some_elim hgen
  set k := numClasses labels with hk
  set cpc := (cpu * nu) / k with hcpc
  have hnn0 : ∀ c x,
      x ∈ ((List.range k).map (class_probs draw cpc)).getD c [] → 0 ≤ x := by
    intro c x hx
    rw [initProbs_getD] at hx
    rcases lt_or_le c k with hc | hc
    · rw [if_pos hc] at hx
      exact class_probs_nonneg (le_of_lt hlow) (fun t _ => hdraw c t) x hx
    · rw [if_neg (by omega)] at hx
      cases hx
  have hmain := userLoop_probsum rnd cpu nu 0
    ⟨List.replicate k cpc, (List.range k).map (class_probs draw cpc)⟩
    ⟨[], []⟩ out hrun rfl hnn0
  have hfin := userLoop_probs_nonneg rnd cpu nu 0
    ⟨List.replicate k cpc, (List.range k).map (class_probs draw cpc)⟩
    ⟨[], []⟩ out hrun hnn0
  constructor
  · intro c
    have h1 := hmain.1 c
    have hempty : planPairs (⟨[], []⟩ : Plan) = [] := rfl
    rw [hempty, pairProbSum_nil] at h1
    have hfinnn : 0 ≤ (out.1.probs.getD c []).sum :=
      List.sum_nonneg (fun x hx => hfin c x hx)
    have hinit : (((List.range k).map (class_probs draw cpc)).getD c []).sum ≤ 1 := by
      rw [initProbs_getD]
      rcases lt_or_le c k with hc | hc
      · rw [if_pos hc]
        rcases Nat.eq_zero_or_pos cpc with hz | hz
        · rw [hz]
          simp [class_probs, normalize]
        · rw [class_probs_sum_one hlow hz (fun t _ => hdraw c t)]
      · rw [if_neg (by omega)]
        simp
    dsimp only at h1
    linarith
  · intro pr hpr
    rcases hmain.2 pr hpr with hmem | hge
    · cases hmem
    · exact hge

theorem balanced_replicate (k a : ℕ) : Balanced (List.replicate k a) := by
  unfold Balanced
  intro i hi j hj
  rw [List.getD_eq_getElem _ _ hi, List.getD_eq_getElem _ _ hj,
    List.getElem_replicate, List.getElem_replicate]
  omega

theorem getD_replicate_lt {k a i : ℕ} (h : i < k) :
    (List.replicate k a).getD i 0 = a := by
  rw [List.getD_eq_getElem _ _ (by simpa using h), List.getElem_replicate]

/-- Under the divisibility precondition and `classes_per_user ≤ num_classes`,
`gen_classes_per_node` always returns. -/
theorem gen_total {labels : List ℕ} {nu cpu : ℕ} (draw : ℕ → ℕ → ℚ) (rnd : ℕ → ℕ)
    (hdiv : (cpu * nu) % numClasses labels = 0) (hcpu : cpu ≤ numClasses labels) :
    (gen_classes_per_node labels nu cpu draw rnd).isSome := by
  rw [gen_classes_per_node, if_pos hdiv]
  apply userLoop_total
  · exact balanced_replicate _ _
  · simpa using hcpu

/-- The initial budget table sums to `num_users * classes_per_user` under the
divisibility precondition. -/
theorem init_counts_sum {labels : List ℕ} {nu cpu : ℕ}
    (hdiv : (cpu * nu) % numClasses labels = 0) :
    (List.replicate (numClasses labels) ((cpu * nu) / numClasses labels)).sum
      = nu * cpu := by
  rw [List.sum_replicate, smul_eq_mul]
  have h := Nat.mul_div_cancel' (Nat.dvd_of_mod_eq_zero hdiv)
  rw [h, Nat.mul_comm]

/-! ### Claim theorems for `gen_classes_per_node` -/

/-- C2: in every returning run of `gen_classes_per_node`, every class's
remaining budget reaches exactly 0 and every class id below `num_classes`
occurs in exactly `count_per_class = classes_per_user * num_clients /
num_classes` (client, slot) pairs of the plan. -/
theorem claim2_budget_exhaustion (labels : List ℕ) (nu cpu : ℕ)
    (draw : ℕ → ℕ → ℚ) (rnd : ℕ → ℕ) (out : ClassDict × Plan)
    (hgen : gen_classes_per_node labels nu cpu draw rnd = some out) :
    out.1.counts = List.replicate (numClasses labels) 0 ∧
    (∀ c, c < numClasses labels →
      out.2.classes.flatten.count c = (cpu * nu) / numClasses labels) := by
  obtain ⟨hdiv, hrun⟩ := gen_some_elim hgen
  have hm := userLoop_master rnd cpu nu 0
    ⟨List.replicate (numClasses labels) ((cpu * nu) / numClasses labels),
      (List.range (numClasses labels)).map
        (class_probs draw ((cpu * nu) / numClasses labels))⟩
    ⟨[], []⟩ out hrun (init_counts_sum hdiv)
  obtain ⟨hlen, hsum0, hcount, _, _, _⟩ := hm
  dsimp only at hlen hsum0 hcount
  rw [List.length_replicate] at hlen
  have hrep : out.1.counts = List.replicate (numClasses labels) 0 := by
    rw [List.eq_replicate_iff]
    exact ⟨hlen, List.sum_eq_zero_iff.mp hsum0⟩
  refine ⟨hrep, ?_⟩
  intro c hc
  have h1 := hcount c
  rw [hrep, getD_replicate_lt hc, getD_replicate_lt hc] at h1
  simpa using h1

/-- C4: in every returning run of `gen_classes_per_node`, the plan has one
entry per client; each client's class list holds exactly `classes_per_user`
pairwise-distinct class ids, with a parallel proportion list of the same
length. -/
theorem claim4_plan_shape (labels : List ℕ) (nu cpu : ℕ)
    (draw : ℕ → ℕ → ℚ) (rnd : ℕ → ℕ) (out : ClassDict × Plan)
    (hgen : gen_classes_per_node labels nu cpu draw rnd = some out) :
    out.2.classes.length = nu ∧ out.2.probs.length = nu ∧
    (∀ cl ∈ out.2.classes, cl.length = cpu ∧ cl.Nodup) ∧
    (∀ u, (out.2.probs.getD u []).length = (out.2.classes.getD u []).length) := by
  obtain ⟨hdiv, hrun⟩ := gen_some_elim hgen
  have hm := userLoop_master rnd cpu nu 0
    ⟨List.replicate (numClasses labels) ((cpu * nu) / numClasses labels),
      (List.range (numClasses labels)).map
        (class_probs draw ((cpu * nu) / numClasses labels))⟩
    ⟨[], []⟩ out hrun (init_counts_sum hdiv)
  obtain ⟨_, _, _, hclen, hplen, hentry⟩ := hm
  have hpar := userLoop_parallel rnd cpu nu 0
    ⟨List.replicate (numClasses labels) ((cpu * nu) / numClasses labels),
      (List.range (numClasses labels)).map
        (class_probs draw ((cpu * nu) / numClasses labels))⟩
    ⟨[], []⟩ out hrun (fun u => rfl) rfl
  refine ⟨by simpa using hclen, by simpa using hplen, ?_, hpar⟩
  intro cl hcl
  rcases hentry cl hcl with hmem | hq
  · cases hmem
  · exact ⟨hq.1, hq.2.1⟩

/-- C9: with the divisibility precondition and the strengthened assumption
`classes_per_user ≤ num_classes`, every selection step has a non-empty
candidate list, so `gen_classes_per_node` never hits the failure branch of
`np.random.choice`. -/
theorem claim9_no_empty_choice (labels : List ℕ) (nu cpu : ℕ)
    (draw : ℕ → ℕ → ℚ) (rnd : ℕ → ℕ)
    (hdiv : (cpu * nu) % numClasses labels = 0)
    (hcpu : cpu ≤ numClasses labels) :
    gen_classes_per_node labels nu cpu draw rnd ≠ none :=
  Option.ne_none_iff_isSome.mpr (gen_total draw rnd hdiv hcpu)

/-- C6, amended: a violated divisibility precondition always aborts
`gen_classes_per_node`; divisibility alone does not guarantee success (see the
counterexample with `classes_per_user > num_classes`), but divisibility
together with `classes_per_user ≤ num_classes` does. -/
theorem claim6_divisibility_failure (labels : List ℕ) (nu cpu : ℕ)
    (draw : ℕ → ℕ → ℚ) (rnd : ℕ → ℕ) :
    ((cpu * nu) % numClasses labels ≠ 0 →
      gen_classes_per_node labels nu cpu draw rnd = none) ∧
    ((cpu * nu) % numClasses labels = 0 → cpu ≤ numClasses labels →
      gen_classes_per_node labels nu cpu draw rnd ≠ none) := by
  constructor
  · intro h
    rw [gen_classes_per_node, if_neg h]
  · intro h1 h2
    exact Option.ne_none_iff_isSome.mpr (gen_total draw rnd h1 h2)

/-- C6, counterexample to the claimed equivalence: with two classes, one
client and four classes per client the divisibility precondition holds, yet
the run fails (the candidate list empties after both classes are chosen). -/
theorem claim6_counterexample :
    (4 * 1) % numClasses [0, 1] = 0 ∧
    gen_classes_per_node [0, 1] 1 4 (fun _ _ => (1 : ℚ)/2) (fun _ => 0) = none := by
  decide

/-- C7: the `count_per_class` proportions drawn for a class from
`[prob_low, prob_high]` with `0 < prob_low` sum to exactly 1 after
normalisation (in the exact rational model of Python floats). -/
theorem claim7_normalized_sum (draw : ℕ → ℕ → ℚ) (cpc i : ℕ) (low high : ℚ)
    (hlow : 0 < low) (hcpc : 0 < cpc)
    (hb : ∀ t, t < cpc → low ≤ draw i t ∧ draw i t ≤ high) :
    (class_probs draw cpc i).sum = 1 ∧ (class_probs draw cpc i).length = cpc :=
  ⟨class_probs_sum_one hlow hcpc (fun t ht => (hb t ht).1), class_probs_length _ _ _⟩

/-! ### Helpers for the `gen_data_split` claims -/

theorem shuffled_pool_length {labels : List ℕ} {pools : List (List ℕ)}
    (hsh : Shuffled labels pools) (c : ℕ) :
    (pools.getD c []).length = num_samples labels c :=
  ((hsh c).length_eq).trans (length_data_class_idx labels c)

theorem Esum_eq_zero {labels : List ℕ} {c : ℕ} {pairs : List (ℕ × ℚ)}
    (h : c ∉ pairs.map Prod.fst) : Esum labels c pairs = 0 := by
  have hfil : pairs.filter (fun pr => pr.1 == c) = [] := by
    rw [List.filter_eq_nil_iff]
    intro pr hpr
    simp only [beq_iff_eq]
    intro hc
    exact h (List.mem_map.mpr ⟨pr, hpr, hc⟩)
  rw [Esum, hfil]
  rfl

theorem getD_map_flatten (L : List (List (List ℕ))) (u : ℕ) :
    (L.map List.flatten).getD u [] = (L.getD u []).flatten := by
  rcases lt_or_le u L.length with hu | hu
  · rw [List.getD_eq_getElem _ _ (by simpa using hu), List.getD_eq_getElem _ _ hu,
      List.getElem_map]
  · rw [getD_of_length_le (by simpa using hu), getD_of_length_le hu]
    rfl

theorem mkPairs_getD : ∀ (A : List (List ℕ)) (B : List (List ℚ)) (u : ℕ),
    (mkPairs ⟨A, B⟩).getD u [] = (A.getD u []).zip (B.getD u [])
  | [], B, u => by simp [mkPairs]
  | a :: A, [], u => by simp [mkPairs]
  | a :: A, b :: B, 0 => by simp [mkPairs]
  | a :: A, b :: B, u + 1 => by
    simp only [mkPairs, List.zip_cons_cons, List.map_cons, List.getD_cons_succ]
    exact mkPairs_getD A B u

theorem mkPairs_getD_plan (plan : Plan) (u : ℕ) :
    (mkPairs plan).getD u []
      = (plan.classes.getD u []).zip (plan.probs.getD u []) :=
  mkPairs_getD plan.classes plan.probs u

theorem shuffled_flatten_nodup {labels : List ℕ} {pools : List (List ℕ)}
    (hsh : Shuffled labels pools) : pools.flatten.Nodup := by
  rw [List.nodup_flatten]
  constructor
  · intro l hl
    obtain ⟨c, hc, heq⟩ := List.mem_iff_getElem.mp hl
    have hnd : (pools.getD c []).Nodup :=
      ((hsh c).nodup_iff).mpr (nodup_data_class_idx labels c)
    rw [List.getD_eq_getElem _ _ hc, heq] at hnd
    exact hnd
  · rw [List.pairwise_iff_getElem]
    intro i j hi hj hij
    intro x hxi hxj
    have h1 : x ∈ data_class_idx labels i := by
      apply (hsh i).mem_iff.mp
      rw [List.getD_eq_getElem _ _ hi]
      exact hxi
    have h2 : x ∈ data_class_idx labels j := by
      apply (hsh j).mem_iff.mp
      rw [List.getD_eq_getElem _ _ hj]
      exact hxj
    have e1 := (mem_data_class_idx.mp h1).2
    have e2 := (mem_data_class_idx.mp h2).2
    omega

/-! ### Claim theorems for `gen_data_split` -/

/-- C1, counterexample to the claimed remaining-pool semantics: ten samples
of class 0, two clients each planned `(class 0, proportion 1/2)`.  The second
client's slice has 5 indices (the code computes `int(num_samples[0] * 0.5)`
from the original class size 10), while the remaining pool at its assignment
time has 5 indices, so the claimed count `floor(5 * 0.5) = 2` is wrong. -/
theorem claim1_counterexample :
    (((splitUsers (List.replicate 10 0)
        (mkPairs ⟨[[0], [0]], [[(1 : ℚ)/2], [(1 : ℚ)/2]]⟩)
        (initPools (List.replicate 10 0))).2.getD 1 []).getD 0 []).length = 5 ∧
    ((splitUsers (List.replicate 10 0) [[(0, (1 : ℚ)/2)]]
        (initPools (List.replicate 10 0))).1.getD 0 []).length = 5 ∧
    end_idx 5 ((1 : ℚ)/2) = 2 ∧ (5 : ℕ) ≠ 2 := by
  have hns : num_samples (List.replicate 10 0) 0 = 10 := by decide
  have he10 : end_idx (num_samples (List.replicate 10 0) 0) ((1 : ℚ)/2) = 5 := by
    rw [hns, end_idx, pyInt, if_pos (by norm_num)]
    norm_num
    decide
  have he5 : end_idx 5 ((1 : ℚ)/2) = 2 := by
    rw [end_idx, pyInt, if_pos (by norm_num)]
    norm_num
    decide
  refine ⟨?_, ?_, he5, by decide⟩
  · simp only [mkPairs, List.zip_cons_cons, List.zip_nil_right, List.map_cons,
      List.map_nil, splitUsers, assignPairs, he10]
    decide
  · simp only [splitUsers, assignPairs, he10]
    decide

/-- C1, amended: every slice a client receives for a `(class, proportion)`
pair of its plan entry has exactly `floor(num_samples[class] * proportion)`
indices, where `num_samples[class]` is the *original* per-class sample count
of the split — not the remaining pool size — provided the per-class
proportions of the plan are nonnegative and sum to at most one (as
`gen_classes_per_node` guarantees). -/
theorem claim1_amended (labels : List ℕ) (pools : List (List ℕ)) (plan : Plan)
    (hsh : Shuffled labels pools)
    (hnn : ∀ pr ∈ planPairs plan, 0 ≤ pr.2)
    (hsum : ∀ c ∈ (planPairs plan).map Prod.fst,
      pairProbSum c (planPairs plan) ≤ 1) :
    ∀ (u i : ℕ) (cp : ℕ × ℚ), ((mkPairs plan).getD u [])[i]? = some cp →
    (((splitUsers labels (mkPairs plan) pools).2.getD u []).getD i []).length
      = end_idx (num_samples labels cp.1) cp.2 := by
  intro u i cp hcp
  apply splitUsers_take_length labels (mkPairs plan) pools _ u i cp hcp
  intro c
  show Esum labels c (planPairs plan) ≤ (pools.getD c []).length
  rw [shuffled_pool_length hsh c]
  by_cases hc : c ∈ (planPairs plan).map Prod.fst
  · exact Esum_le labels c (planPairs plan) (fun pr hpr _ => hnn pr hpr) (hsum c hc)
  · rw [Esum_eq_zero hc]
    omega

/-- C3: for every shuffle outcome and every plan, the per-client index lists
produced by `gen_data_split` are pairwise disjoint. -/
theorem claim3_disjoint (labels : List ℕ) (pools : List (List ℕ)) (plan : Plan)
    (hsh : Shuffled labels pools) :
    (gen_data_split labels pools plan).Pairwise List.Disjoint := by
  have hnd : pools.flatten.Nodup := shuffled_flatten_nodup hsh
  have hms := assignPairs_ms labels (mkPairs plan).flatten pools
  have hgds : (gen_data_split labels pools plan).flatten
      = (assignPairs labels (mkPairs plan).flatten pools).2.flatten := by
    rw [gen_data_split, splitUsers_takes_flatten]
  have hle : ((gen_data_split labels pools plan).flatten : Multiset ℕ)
      ≤ (pools.flatten : Multiset ℕ) := by
    rw [hgds, ← hms]
    exact Multiset.le_add_right _ _
  have hnodup : (gen_data_split labels pools plan).flatten.Nodup := by
    rw [← Multiset.coe_nodup]
    exact Multiset.nodup_of_le hle (Multiset.coe_nodup.mpr hnd)
  exact (List.nodup_flatten.mp hnodup).2

/-- C5: for every split (labels and shuffle outcome of that split) and every
plan, each index assigned to client `u` carries a label that belongs to
client `u`'s planned class list; since `gen_random_loaders` reuses one plan
for train/val/test, each client draws from the same class ids in all three
splits. -/
theorem claim5_class_footprint (labels : List ℕ) (pools : List (List ℕ))
    (plan : Plan) (hsh : Shuffled labels pools) :
    ∀ u x, x ∈ (gen_data_split labels pools plan).getD u [] →
      labels.getD x 0 ∈ plan.classes.getD u [] := by
  intro u x hx
  rw [gen_data_split, getD_map_flatten] at hx
  obtain ⟨cp, hcp, hxp⟩ := splitUsers_take_mem labels (mkPairs plan) pools u hx
  have hxd : x ∈ data_class_idx labels cp.1 := (hsh cp.1).mem_iff.mp hxp
  have hlab : labels.getD x 0 = cp.1 := (mem_data_class_idx.mp hxd).2
  rw [hlab]
  rw [mkPairs_getD_plan] at hcp
  obtain ⟨a, b⟩ := cp
  exact (List.of_mem_zip hcp).1

/-- C10: for every plan produced by `gen_classes_per_node` (under the
positive sampling bounds) and every class `c`, the floored requests for `c`
across all clients sum to at most the initial pool size, every slice is taken
in full (no silent truncation), and the residual pool of `c` is exactly the
initial size minus the sum of the floored requests. -/
theorem claim10_pool_conservation (labels : List ℕ) (pools : List (List ℕ))
    (nu cpu : ℕ) (draw : ℕ → ℕ → ℚ) (rnd : ℕ → ℕ) (low : ℚ)
    (out : ClassDict × Plan)
    (hgen : gen_classes_per_node labels nu cpu draw rnd = some out)
    (hlow : 0 < low) (hdraw : ∀ i t, low ≤ draw i t)
    (hsh : Shuffled labels pools) :
    ∀ c,
    Esum labels c (planPairs out.2) ≤ num_samples labels c ∧
    ((splitUsers labels (mkPairs out.2) pools).1.getD c []).length
      = num_samples labels c - Esum labels c (planPairs out.2) ∧
    (∀ (u i : ℕ) (cp : ℕ × ℚ), ((mkPairs out.2).getD u [])[i]? = some cp →
      (((splitUsers labels (mkPairs out.2) pools).2.getD u []).getD i []).length
        = end_idx (num_samples labels cp.1) cp.2) := by
  have hpp := gen_plan_probs hgen hlow hdraw
  have hEle : ∀ c, Esum labels c (planPairs out.2) ≤ num_samples labels c :=
    fun c => Esum_le labels c _ (fun pr hpr _ => hpp.2 pr hpr) (hpp.1 c)
  have hE : ∀ c, Esum labels c ((mkPairs out.2).flatten) ≤ (pools.getD c []).length := by
    intro c
    show Esum labels c (planPairs out.2) ≤ (pools.getD c []).length
    rw [shuffled_pool_length hsh c]
    exact hEle c
  intro c
  refine ⟨hEle c, ?_, fun u i cp hcp =>
    splitUsers_take_length labels _ pools hE u i cp hcp⟩
  rw [splitUsers_fst_eq,
    assignPairs_pool_length labels _ pools c (hE c), shuffled_pool_length hsh c]
  rfl

/-- C8: `get_datasets` raises on every dataset name outside
`{cifar10, cifar100, cinic10}` (a `KeyError` for other names containing
"cifar", a `ValueError` otherwise), and raises for `cinic10` when the
expected directory is absent; no unknown name is silently accepted. -/
theorem claim8_dataset_errors :
    (∀ (name : String) (b : Bool),
      name ≠ "cifar10" → name ≠ "cifar100" → name ≠ "cinic10" →
      isError (get_datasets name b) = true) ∧
    isError (get_datasets "cinic10" false) = true := by
  constructor
  · intro name b h1 h2 h3
    rw [get_datasets]
    by_cases hc : containsCifar name = true
    · rw [if_pos hc, if_neg h1, if_neg h2]
      rfl
    · rw [if_neg hc, if_neg h3]
      rfl
  · rfl

/-! ### Witnesses -/

/-- Concrete witness for the amended C1: the first client's slice for its
`(class 0, proportion 1/2)` pair really has `floor(10 * 1/2)` indices. -/
theorem claim1_amended_witness :
    Shuffled (List.replicate 10 0) (initPools (List.replicate 10 0)) ∧
    (((splitUsers (List.replicate 10 0)
        (mkPairs ⟨[[0], [0]], [[(1 : ℚ)/2], [(1 : ℚ)/2]]⟩)
        (initPools (List.replicate 10 0))).2.getD 0 []).getD 0 []).length
      = end_idx (num_samples (List.replicate 10 0) 0) ((1 : ℚ)/2) := by
  have hsh : Shuffled (List.replicate 10 0) (initPools (List.replicate 10 0)) :=
    initPools_shuffled (by unfold Canonical; decide)
  refine ⟨hsh, ?_⟩
  refine claim1_amended (List.replicate 10 0) _
    ⟨[[0], [0]], [[(1 : ℚ)/2], [(1 : ℚ)/2]]⟩ hsh ?_ ?_ 0 0 (0, (1 : ℚ)/2) rfl
  · intro pr hpr
    have hpr' : pr = (0, (1 : ℚ)/2) := by
      simpa [planPairs, mkPairs] using hpr
    rw [hpr']
    norm_num
  · intro c hc
    have hc' : c = 0 := by
      simpa [planPairs, mkPairs] using hc
    rw [hc']
    simp only [planPairs, mkPairs, List.zip_cons_cons, List.zip_nil_right,
      List.map_cons, List.map_nil, List.flatten_cons, List.flatten_nil,
      pairProbSum, List.filter_cons, List.filter_nil]
    norm_num

/-- Concrete witness for C2: a returning run on two classes and two clients
exhausts every budget. -/
theorem claim2_witness :
    ∃ out, gen_classes_per_node [0, 1] 2 1 (fun _ _ => (1 : ℚ)/2) (fun _ => 0)
        = some out ∧
      out.1.counts = List.replicate (numClasses [0, 1]) 0 := by
  obtain ⟨out, hout⟩ := Option.isSome_iff_exists.mp
    (@gen_total [0, 1] 2 1
      (fun _ _ => (1 : ℚ)/2) (fun _ => 0) (by decide) (by decide))
  exact ⟨out, hout, (claim2_budget_exhaustion [0, 1] 2 1 _ _ out hout).1⟩

/-- Concrete witness for C3. -/
theorem claim3_witness :
    Shuffled [0, 1, 0, 1] (initPools [0, 1, 0, 1]) ∧
    (gen_data_split [0, 1, 0, 1] (initPools [0, 1, 0, 1])
      ⟨[[0], [1]], [[1], [1]]⟩).Pairwise List.Disjoint := by
  have hsh := @initPools_shuffled [0, 1, 0, 1] (by unfold Canonical; decide)
  exact ⟨hsh, claim3_disjoint _ _ _ hsh⟩

/-- Concrete witness for C4. -/
theorem claim4_witness :
    ∃ out, gen_classes_per_node [0, 1] 2 1 (fun _ _ => (1 : ℚ)/2) (fun _ => 0)
        = some out ∧
      out.2.classes.length = 2 := by
  obtain ⟨out, hout⟩ := Option.isSome_iff_exists.mp
    (@gen_total [0, 1] 2 1
      (fun _ _ => (1 : ℚ)/2) (fun _ => 0) (by decide) (by decide))
  exact ⟨out, hout, (claim4_plan_shape [0, 1] 2 1 _ _ out hout).1⟩

/-- Concrete witness for C5. -/
theorem claim5_witness :
    Shuffled [0, 1] (initPools [0, 1]) ∧
    (∀ u x,
      x ∈ (gen_data_split [0, 1] (initPools [0, 1])
        ⟨[[0], [1]], [[1], [1]]⟩).getD u [] →
      ([0, 1] : List ℕ).getD x 0
        ∈ (⟨[[0], [1]], [[1], [1]]⟩ : Plan).classes.getD u []) := by
  have hsh := @initPools_shuffled [0, 1] (by unfold Canonical; decide)
  exact ⟨hsh, claim5_class_footprint _ _ _ hsh⟩

/-- Concrete witness for the amended C6: both directions at concrete inputs. -/
theorem claim6_witness :
    gen_classes_per_node [0, 1] 1 3 (fun _ _ => (1 : ℚ)/2) (fun _ => 0) = none ∧
    gen_classes_per_node [0, 1] 2 1 (fun _ _ => (1 : ℚ)/2) (fun _ => 0) ≠ none := by
  constructor
  · exact (claim6_divisibility_failure [0, 1] 1 3 _ _).1 (by decide)
  · exact (claim6_divisibility_failure [0, 1] 2 1 _ _).2 (by decide) (by decide)

/-- Concrete witness for C7: two equal draws normalise to a list summing
to one. -/
theorem claim7_witness : (class_probs (fun _ _ => (1 : ℚ)/2) 2 0).sum = 1 :=
  (claim7_normalized_sum (fun _ _ => (1 : ℚ)/2) 2 0 ((2 : ℚ)/5) ((3 : ℚ)/5)
    (by norm_num) (by decide) (fun t ht => ⟨by norm_num, by norm_num⟩)).1

/-- Concrete witness for C8: an unsupported name is rejected. -/
theorem claim8_witness : isError (get_datasets "mnist" true) = true :=
  claim8_dataset_errors.1 "mnist" true (by decide) (by decide) (by decide)

/-- Concrete witness for C9. -/
theorem claim9_witness :
    gen_classes_per_node [0, 1] 2 1 (fun _ _ => (1 : ℚ)/2) (fun _ => 0) ≠ none :=
  claim9_no_empty_choice [0, 1] 2 1 _ _ (by decide) (by decide)

/-- Concrete witness for C10. -/
theorem claim10_witness :
    ∃ out, gen_classes_per_node [0, 1] 2 1 (fun _ _ => (1 : ℚ)/2) (fun _ => 0)
        = some out ∧
      Esum [0, 1] 0 (planPairs out.2) ≤ num_samples [0, 1] 0 := by
  obtain ⟨out, hout⟩ := Option.isSome_iff_exists.mp
    (@gen_total [0, 1] 2 1
      (fun _ _ => (1 : ℚ)/2) (fun _ => 0) (by decide) (by decide))
  have hsh := @initPools_shuffled [0, 1] (by unfold Canonical; decide)
  exact ⟨out, hout,
    (claim10_pool_conservation [0, 1] (initPools [0, 1]) 2 1 _ _ ((1 : ℚ)/2) out hout
      (by norm_num) (fun i t => le_refl _) hsh 0).1⟩

end PFedGP
